import Mathlib

/-!
# Verification of the whisper-node diarization / transcript core

Shallow embedding of the numeric and string-processing core of the
whisper-node repository (files `src/core/vad.ts`, `src/core/diarization.ts`,
`src/utils/errors.ts` transcript utilities), together with theorems settling
the specification claims about it.

Modelling conventions:
* JavaScript numbers are modelled as `ℚ` (the code performs only field
  operations, floor, round and comparisons on them); `NaN` is modelled as
  `none : Option ℚ` where it can arise (the `Number()` conversion), with
  comparisons against `NaN` returning `false` as in JS.
* JavaScript strings are modelled as `List Char`.
* A thrown exception is modelled as `Except.error ()`.
-/

set_option linter.unusedVariables false

namespace WhisperNode

/-! ## JS strings: characters, splitting, decimal numerals -/

/-- Decimal digit character, `String(d)` for a single digit `d`. -/
def digitChar (d : ℕ) : Char := Char.ofNat (48 + d)

/-- Worker for `natDigits`: structural recursion on a fuel argument so
that the definition reduces inside the kernel (`fuel ≥ n` suffices). -/
def natDigitsGo : ℕ → ℕ → List Char
  | 0, n => [digitChar n]
  | fuel + 1, n =>
    if n < 10 then [digitChar n]
    else natDigitsGo fuel (n / 10) ++ [digitChar (n % 10)]

/-- Decimal digit string of a natural number, as produced by JS
`String(n)` for a non-negative integer `n`. -/
def natDigits (n : ℕ) : List Char := natDigitsGo n n

/-- JS `String.prototype.split` with a single-character separator. -/
def splitOnChar (c : Char) : List Char → List (List Char)
  | [] => [[]]
  | x :: xs =>
    if x = c then [] :: splitOnChar c xs
    else
      match splitOnChar c xs with
      | [] => [[x]]
      | g :: gs => (x :: g) :: gs

/-- Is `c` a decimal digit (`0`–`9`)? -/
def isDigitCh (c : Char) : Bool := c.isDigit

/-- Value of a string of decimal digits (most significant first). -/
def digitsVal (s : List Char) : ℕ :=
  s.foldl (fun a c => 10 * a + (c.toNat - 48)) 0

/-- Model of the JS `Number()` conversion, restricted to the unsigned
decimal numeral strings this code produces and consumes: `""` → `0`,
`"123"`, `"12.5"`, `"12."`, `".5"` parse as decimals, and anything else is
`NaN` (modelled as `none`).  (Signs, exponents, hex and whitespace forms
never occur in the timestamp strings handled here.) -/
def jsNum (s : List Char) : Option ℚ :=
  if s = [] then some 0
  else
    match splitOnChar '.' s with
    | [a] => if a.all isDigitCh then some ((digitsVal a : ℚ)) else none
    | [a, b] =>
        if (!a.isEmpty || !b.isEmpty) && a.all isDigitCh && b.all isDigitCh
        then some ((digitsVal a : ℚ) + (digitsVal b : ℚ) / 10 ^ b.length)
        else none
    | _ => none

/-! ## Time strings (`src/utils/errors.ts`, transcript utilities)

`pad2`, `pad3`, `timeToMs` and `msToTime` are the private helpers used by
`mergeWordLevelTranscript`. -/

/-- `pad2` from the source: zero-pad a non-negative number to two digits. -/
def pad2 (n : ℕ) : List Char :=
  if n < 10 then '0' :: natDigits n else natDigits n

/-- `pad3` from the source: zero-pad a non-negative number to three digits. -/
def pad3 (n : ℕ) : List Char :=
  if n < 10 then '0' :: '0' :: natDigits n
  else if n < 100 then '0' :: natDigits n
  else natDigits n

/-- `Number(x) || 0` applied to a parsed numeral: `NaN` (and `0`) collapse
to `0`. -/
def jsOr0 (x : Option ℚ) : ℚ := x.getD 0

/-- `timeToMs` from the source: parse `"HH:MM:SS.mmm"` into milliseconds.
Strings that do not split into exactly three `":"`-separated parts yield
`0`; non-numeric parts contribute `0` via `Number(_) || 0`.  JS
`Math.round` on a rational is `⌊x + 1/2⌋`, which is Mathlib's `round`. -/
def timeToMs (t : List Char) : ℤ :=
  let parts := splitOnChar ':' t
  if parts.length ≠ 3 then 0
  else
    let hours := jsOr0 (jsNum (parts.getD 0 []))
    let minutes := jsOr0 (jsNum (parts.getD 1 []))
    let seconds := jsOr0 (jsNum (parts.getD 2 []))
    round ((hours * 3600 + minutes * 60 + seconds) * 1000)

/-- `msToTime` from the source: format milliseconds as `"HH:MM:SS.mmm"`.
Negative inputs are clamped to `0`; all the integer arithmetic is on
non-negative values, so it is carried out in `ℕ`.  The source applies
`Math.round` to `milli`, which is already an integer. -/
def msToTime (ms : ℤ) : List Char :=
  let m : ℕ := ms.toNat
  let totalSeconds := m / 1000
  let milli := m - totalSeconds * 1000
  let hours := totalSeconds / 3600
  let minutes := totalSeconds % 3600 / 60
  let seconds := totalSeconds % 60
  pad2 hours ++ ':' :: pad2 minutes ++ ':' :: pad2 seconds ++
    '.' :: pad3 (round (milli : ℚ)).toNat

/-! ## Transcript lines and the word-level sentence merger
(`src/utils/errors.ts`: `ITranscriptLine`, `isPunctuation`,
`isEndSentencePunct`, `MergeOptions`, `mergeWordLevelTranscript`) -/

/-- `ITranscriptLine`: start/end timestamps, text, optional speaker.
The source field `end` is a Lean keyword and is named `stop` here; an
absent (`undefined`) speaker is `none`. -/
structure ITranscriptLine where
  start : List Char
  stop : List Char
  speech : List Char
  speaker : Option (List Char)
deriving DecidableEq, Repr

/-- The punctuation character class of `isPunctuation`:
`. , ! ? ; : -` en dash, em dash, horizontal ellipsis, parentheses,
square brackets, curly braces, double quote, single quote, backtick. -/
def punctuationChars : List Char :=
  ['.', ',', '!', '?', ';', ':', '-', Char.ofNat 0x2013, Char.ofNat 0x2014,
   Char.ofNat 0x2026, '(', ')', '[', ']', Char.ofNat 123, Char.ofNat 125,
   Char.ofNat 34, Char.ofNat 39, Char.ofNat 96]

/-- `isPunctuation`: the token is non-empty and consists only of
punctuation characters (the JS regex `^[‥]+$` over the class above;
`!token` short-circuits the empty string to `false`). -/
def isPunctuation (token : List Char) : Bool :=
  !token.isEmpty && token.all (fun c => punctuationChars.contains c)

/-- `isEndSentencePunct`: the JS regex `[.!?]$`, i.e. the last character
is `.`, `!` or `?`. -/
def isEndSentencePunct (token : List Char) : Bool :=
  match token.getLast? with
  | some c => c = '.' || c = '!' || c = '?'
  | none => false

/-- `MergeOptions` from the source; both fields optional. -/
structure MergeOptions where
  maxGapMs : Option ℤ
  maxCharsPerSegment : Option ℤ

/-- JS truthiness of an optional string: `undefined` and `""` are falsy. -/
def jsTruthyStr (s : Option (List Char)) : Bool :=
  match s with
  | some c => !c.isEmpty
  | none => false

/-- JS `String.prototype.trim` (restricted to ASCII whitespace, the only
whitespace occurring in these transcripts). -/
def isWsChar (c : Char) : Bool := c = ' ' || c = '\t' || c = '\n' || c = '\r'

def jsTrim (s : List Char) : List Char :=
  ((s.dropWhile isWsChar).reverse.dropWhile isWsChar).reverse

/-- Mutable loop state of `mergeWordLevelTranscript`: accumulated output
lines (in emission order), token buffer, current segment bounds and
speaker. -/
structure MergeState where
  merged : List ITranscriptLine
  buffer : List (List Char)
  segStartMs : Option ℤ
  segEndMs : Option ℤ
  currentSpeaker : Option (List Char)

/-- The `flush` closure of `mergeWordLevelTranscript`: emit the buffered
tokens as one merged line and reset the segment state.  A no-op when the
buffer is empty or either bound is unset. -/
def flush (st : MergeState) : MergeState :=
  match st.buffer, st.segStartMs, st.segEndMs with
  | [], _, _ => st
  | _, none, _ => st
  | _, _, none => st
  | _ :: _, some s, some e =>
    let text := st.buffer.flatten
    let item : ITranscriptLine :=
      { start := msToTime s, stop := msToTime e, speech := jsTrim text,
        speaker := if jsTruthyStr st.currentSpeaker then st.currentSpeaker else none }
    { merged := st.merged ++ [item], buffer := [], segStartMs := none,
      segEndMs := none, currentSpeaker := none }

/-- The `for` loop of `mergeWordLevelTranscript`, one call per word.
The source's token-append branch on a punctuation *previous* token is
redundant (both arms prepend a single space) and is modelled by the single
`else` arm. -/
def mergeLoop (maxGapMs maxChars : ℤ) : MergeState → List ITranscriptLine →
    List ITranscriptLine
  | st, [] => st.merged
  | st, cur :: rest =>
    let curStart := timeToMs cur.start
    let curEnd := timeToMs cur.stop
    let segStart := match st.segStartMs with
      | none => some curStart
      | some v => some v
    let spk := if !(jsTruthyStr st.currentSpeaker) && jsTruthyStr cur.speaker
      then cur.speaker else st.currentSpeaker
    let token := cur.speech
    let buffer :=
      if st.buffer.isEmpty then [token]
      else if isPunctuation token then st.buffer ++ [token]
      else st.buffer ++ [' ' :: token]
    let st1 : MergeState :=
      { merged := st.merged, buffer := buffer, segStartMs := segStart,
        segEndMs := some curEnd, currentSpeaker := spk }
    let reachedMaxChars := (buffer.flatten.length : ℤ) ≥ maxChars
    let endedWithEOS := isEndSentencePunct token
    let gapBreak := match rest.head? with
      | some nxt => timeToMs nxt.start - curEnd > maxGapMs
      | none => false
    let st2 := if endedWithEOS || gapBreak || reachedMaxChars || rest.isEmpty
      then flush st1 else st1
    mergeLoop maxGapMs maxChars st2 rest

/-- `mergeWordLevelTranscript` from the source: merge per-word transcript
lines into sentence/segment-level lines using punctuation and pause
heuristics.  Defaults: `maxGapMs = 600`, `maxCharsPerSegment = 320`. -/
def mergeWordLevelTranscript (lines : List ITranscriptLine)
    (opts : Option MergeOptions) : List ITranscriptLine :=
  if lines.isEmpty then []
  else
    let maxGapMs := (opts.bind (·.maxGapMs)).getD 600
    let maxChars := (opts.bind (·.maxCharsPerSegment)).getD 320
    mergeLoop maxGapMs maxChars ⟨[], [], none, none, none⟩ lines

/-! ## VAD core (`src/core/vad.ts`) -/

/-- `Frame` from `src/core/vad.ts`: a fixed-width time window and its
log-energy.  The source field `end` is named `stop` (Lean keyword). -/
structure Frame where
  start : ℚ
  stop : ℚ
  energy : ℚ
deriving DecidableEq, Repr

/-- `VoicedFrame`: a frame plus its index in the full frame sequence. -/
structure VoicedFrame where
  start : ℚ
  stop : ℚ
  energy : ℚ
  idx : ℕ
deriving DecidableEq, Repr

/-- The loop body of `computeFrameEnergies` at sample index `j`: the
window `[j, j + hop)` of squared samples is summed (`pcm[j + k]` is
in-bounds whenever the loop guard holds, so the `getD` fallback is never
used), and the frame is
`{start: j/sampleRate, end: start + frameMs/1000, energy: log10(1e-9 + sum/hop)}`.
`log10` abstracts JS `Math.log10`, which the claims never evaluate. -/
def frameAt (log10 : ℚ → ℚ) (pcm : List ℚ) (sampleRate frameMs : ℚ)
    (hop j : ℕ) : Frame :=
  let sum := (List.range hop).foldl
    (fun a k => a + pcm.getD (j + k) 0 * pcm.getD (j + k) 0) 0
  let t0 := (j : ℚ) / sampleRate
  { start := t0, stop := t0 + frameMs / 1000,
    energy := log10 (1 / 1000000000 + sum / (hop : ℚ)) }

/-- The loop of `computeFrameEnergies`: starting at sample index `i`,
emit one frame per window of `hop` samples while `i + hop ≤ pcm.length`.
Structural recursion on a fuel argument (`fuel ≥ pcm.length + 1 - i`
suffices, each step consuming `hop ≥ 1` fuel), so that the definition
reduces in the kernel. -/
def framesGo (log10 : ℚ → ℚ) (pcm : List ℚ) (sampleRate frameMs : ℚ)
    (hop : ℕ) : ℕ → ℕ → List Frame
  | _, 0 => []
  | i, fuel + 1 =>
    if hop ≠ 0 ∧ i + hop ≤ pcm.length then
      frameAt log10 pcm sampleRate frameMs hop i ::
        framesGo log10 pcm sampleRate frameMs hop (i + hop) fuel
    else []

/-- `computeFrameEnergies` from `src/core/vad.ts`: slice the PCM buffer
into non-overlapping windows of `hop = ⌊sampleRate * frameMs / 1000⌋`
samples (dropping the incomplete tail) and compute each window's
log-energy `log10(1e-9 + mean(sample²))`.  For `hop = 0` the source loop
would not terminate; the model returns `[]` there (the claims only apply
with `hop ≥ 1`). -/
def computeFrameEnergies (log10 : ℚ → ℚ) (pcm : List ℚ)
    (sampleRate frameMs : ℚ) : List Frame :=
  let hop := (⌊sampleRate * frameMs / 1000⌋).toNat
  framesGo log10 pcm sampleRate frameMs hop 0 (pcm.length + 1)

/-- `median` from `src/core/vad.ts`: sort a copy ascending (the JS
comparator `(x, y) => x - y`); odd length takes the middle element, even
length averages the two middle ones.  For the empty list the source reads
`a[-1]` and `a[0]` (both `undefined`), yielding `NaN`; its only caller
guards that case, and the model returns the junk value `0` there. -/
def median (xs : List ℚ) : ℚ :=
  let a := xs.mergeSort (fun x y => x ≤ y)
  let n := a.length
  if n % 2 = 1 then a.getD ((n - 1) / 2) 0
  else (a.getD (n / 2 - 1) 0 + a.getD (n / 2) 0) / 2

/-- Result of `computeVadThreshold`: either a finite threshold or
`Number.POSITIVE_INFINITY`. -/
inductive VadThreshold where
  | posInf : VadThreshold
  | val : ℚ → VadThreshold
deriving DecidableEq, Repr

/-- `computeVadThreshold` from `src/core/vad.ts`: `+∞` on an empty frame
sequence, otherwise `median(energies) * multiplier` (the source builds
`energies` with an index loop, i.e. `frames.map (·.energy)`; the default
multiplier is `DIARIZATION_CONSTANTS.DEFAULT_VAD_MULTIPLIER = 1.5`). -/
def computeVadThreshold (frames : List Frame) (multiplier : ℚ) : VadThreshold :=
  if frames.length = 0 then .posInf
  else .val (median (frames.map (·.energy)) * multiplier)

/-- `filterVoicedFrames` from `src/core/vad.ts`: keep frames with
`energy ≥ threshold`, attaching the original index. -/
def filterVoicedFrames (frames : List Frame) (threshold : ℚ) : List VoicedFrame :=
  (frames.enum.filter (fun p => p.2.energy ≥ threshold)).map
    (fun p => { start := p.2.start, stop := p.2.stop, energy := p.2.energy, idx := p.1 })

/-! ## Diarization core (`src/core/diarization.ts`) -/

/-- A diarization segment `{start, end, speaker}`; `end` is named `stop`. -/
structure DiaSegment where
  start : ℚ
  stop : ℚ
  speaker : List Char
deriving DecidableEq, Repr

/-- `DiarizationResult` from the source. -/
structure DiarizationResult where
  segments : List DiaSegment
deriving DecidableEq, Repr

/-- The speaker tag `` `S${label}` `` attached to a cluster label. -/
def speakerTag (label : ℕ) : List Char := 'S' :: natDigits label

/-- The feature construction of `runDiarization` (lines 58–61 of
`src/core/diarization.ts`): voiced frame `i` maps to
`[energy, i > 0 ? energy - voiced[i-1].energy : 0]`.  The `i > 0` guard
makes the `voiced[i-1]` access in-bounds, so the model's fallback value
for it is never used. -/
def buildFeatures (voiced : List VoicedFrame) : List (ℚ × ℚ) :=
  voiced.mapIdx (fun i f =>
    (f.energy,
     if 0 < i then f.energy - (((voiced.get? (i - 1)).map (·.energy)).getD 0) else 0))

/-- The segment-merging loop of `runDiarization` (lines 66–79), with the
output list kept in reverse (the head is the segment the source mutates
as `merged[merged.length - 1]`).  Input: voiced frames paired with their
cluster labels, in time order; `d` is `frameMs / 1000`. -/
def mergeFramesRev (d : ℚ) (acc : List DiaSegment) :
    List (VoicedFrame × ℕ) → List DiaSegment
  | [] => acc
  | (f, lab) :: rest =>
    let spk := speakerTag lab
    match acc with
    | [] => mergeFramesRev d [{ start := f.start, stop := f.stop, speaker := spk }] rest
    | last :: done =>
      if last.speaker = spk ∧ |f.start - last.stop| ≤ d then
        mergeFramesRev d ({ last with stop := f.stop } :: done) rest
      else
        mergeFramesRev d ({ start := f.start, stop := f.stop, speaker := spk } :: last :: done) rest

/-- The merged segment list of `runDiarization`, in emission order. -/
def mergeVoicedFrames (frameMs : ℚ) (ps : List (VoicedFrame × ℕ)) : List DiaSegment :=
  (mergeFramesRev (frameMs / 1000) [] ps).reverse

/-! ## Speaker alignment (`assignSpeakersToTranscript`) -/

/-- `NaN`-aware comparison `a ≤ b` where `a` may be `NaN` (`none`):
any comparison against `NaN` is `false` in JS. -/
def jsLe (a : Option ℚ) (b : ℚ) : Bool :=
  match a with
  | none => false
  | some x => x ≤ b

/-- `NaN`-aware comparison `a ≥ b`. -/
def jsGe (a : Option ℚ) (b : ℚ) : Bool :=
  match a with
  | none => false
  | some x => b ≤ x

/-- `NaN`-propagating addition on JS numbers. -/
def nadd (a b : Option ℚ) : Option ℚ :=
  match a, b with
  | some x, some y => some (x + y)
  | _, _ => none

/-- The `toSeconds` closure of `assignSpeakersToTranscript`
(`src/core/diarization.ts`, lines 123–129):
`const [hh, mm, rest] = ts.split(":"); const [ss, ms] = rest.split(".")`.
When `ts` has fewer than three `":"`-separated parts, `rest` is
`undefined` and `rest.split(".")` throws a `TypeError` (`Except.error`).
`Number(ms || 0)` turns a missing or empty milliseconds part into `0`;
non-numeric components become `NaN` (`none`). -/
def toSeconds (ts : List Char) : Except Unit (Option ℚ) :=
  match splitOnChar ':' ts with
  | hh :: mm :: rest :: _ =>
    let p := splitOnChar '.' rest
    let ss := p.headD []
    let msv : Option ℚ :=
      match p.get? 1 with
      | none => some 0
      | some m => if m.isEmpty then some 0 else jsNum m
    .ok (nadd (nadd (nadd ((jsNum hh).map (· * 3600)) ((jsNum mm).map (· * 60)))
      (jsNum ss)) (msv.map (· / 1000)))
  | _ => .error ()

/-- The overlap test of `assignSpeakersToTranscript`:
`!(e <= seg.start || s >= seg.end)`. -/
def segOverlap (s e : Option ℚ) (seg : DiaSegment) : Bool :=
  !(jsLe e seg.start || jsGe s seg.stop)

/-- `Array.prototype.map` over a throwing callback: the first exception
aborts the whole map. -/
def mapExcept (f : α → Except ε β) : List α → Except ε (List β)
  | [] => .ok []
  | a :: as =>
    match f a with
    | .error e => .error e
    | .ok b =>
      match mapExcept f as with
      | .error e => .error e
      | .ok bs => .ok (b :: bs)

/-- The per-line body of `assignSpeakersToTranscript`: parse the line's
bounds (each parse can throw), find the first overlapping diarization
segment, and return the line with (only) its `speaker` field replaced. -/
def assignLine (dia : DiarizationResult) (line : ITranscriptLine) :
    Except Unit ITranscriptLine :=
  match toSeconds line.start with
  | .error e => .error e
  | .ok s =>
    match toSeconds line.stop with
    | .error e => .error e
    | .ok e =>
      let m := dia.segments.find? (fun seg => segOverlap s e seg)
      .ok { start := line.start, stop := line.stop, speech := line.speech,
            speaker := m.map (·.speaker) }

/-- `assignSpeakersToTranscript` from `src/core/diarization.ts`
(lines 119–137). -/
def assignSpeakersToTranscript (transcript : List ITranscriptLine)
    (dia : DiarizationResult) : Except Unit (List ITranscriptLine) :=
  mapExcept (assignLine dia) transcript

/-! ## Theorems -/

theorem natDigitsGo_congr : ∀ f1 f2 n, n ≤ f1 → n ≤ f2 →
    natDigitsGo f1 n = natDigitsGo f2 n := by
  intro f1
  induction f1 with
  | zero =>
    intro f2 n h1 h2
    interval_cases n
    cases f2 <;> simp [natDigitsGo]
  | succ f1 ih =>
    intro f2 n h1 h2
    cases f2 with
    | zero =>
      interval_cases n
      simp [natDigitsGo]
    | succ f2 =>
      simp only [natDigitsGo]
      split
    -- recursive case: n ≥ 10, so n / 10 ≤ f1 and n / 10 ≤ f2
      · rfl
      · next h =>
        rw [ih f2 (n / 10) (by omega) (by omega)]

/-- The recursion `natDigits` actually performs. -/
theorem natDigits_eq (n : ℕ) :
    natDigits n = if n < 10 then [digitChar n]
      else natDigits (n / 10) ++ [digitChar (n % 10)] := by
  show natDigitsGo n n = _
  match n with
  | 0 => simp [natDigitsGo]
  | n + 1 =>
    simp only [natDigitsGo]
    split
    · rfl
    · next h =>
      rw [natDigitsGo_congr n ((n + 1) / 10) ((n + 1) / 10) (by omega) (by omega)]
      rfl

/-! ### Lemmas on digits and splitting -/

theorem digitChar_toNat {d : ℕ} (h : d < 10) : (digitChar d).toNat = 48 + d := by
  interval_cases d <;> decide

theorem isDigitCh_digitChar {d : ℕ} (h : d < 10) : isDigitCh (digitChar d) = true := by
  interval_cases d <;> decide

theorem digitChar_ne {d : ℕ} (h : d < 10) : digitChar d ≠ ':' ∧ digitChar d ≠ '.' := by
  interval_cases d <;> decide

theorem natDigits_ne_nil (n : ℕ) : natDigits n ≠ [] := by
  rw [natDigits_eq]
  split
  · simp
  · simp

theorem natDigits_all_digit (n : ℕ) : ∀ c ∈ natDigits n, isDigitCh c = true := by
  induction n using Nat.strong_induction_on with
  | _ n ih =>
    rw [natDigits_eq]
    split
    · next h => simpa using isDigitCh_digitChar h
    · next h =>
      intro c hc
      rw [List.mem_append] at hc
      rcases hc with hc | hc
      · exact ih (n / 10) (Nat.div_lt_self (by omega) (by omega)) c hc
      · simp only [List.mem_singleton] at hc
        subst hc
        exact isDigitCh_digitChar (Nat.mod_lt _ (by omega))

theorem digitsVal_append_one (s : List Char) (c : Char) :
    digitsVal (s ++ [c]) = 10 * digitsVal s + (c.toNat - 48) := by
  simp [digitsVal, List.foldl_append]

theorem digitsVal_natDigits (n : ℕ) : digitsVal (natDigits n) = n := by
  induction n using Nat.strong_induction_on with
  | _ n ih =>
    rw [natDigits_eq]
    split
    · next h => simp [digitsVal, digitChar_toNat h]
    · next h =>
      rw [digitsVal_append_one, ih (n / 10) (Nat.div_lt_self (by omega) (by omega)),
        digitChar_toNat (Nat.mod_lt _ (by omega))]
      omega

theorem digitsVal_cons_zero (s : List Char) : digitsVal ('0' :: s) = digitsVal s := by
  simp [digitsVal, List.foldl_cons]

theorem splitOnChar_ne_nil (c : Char) (s : List Char) : splitOnChar c s ≠ [] := by
  induction s with
  | nil => simp [splitOnChar]
  | cons x xs ih =>
    simp only [splitOnChar]
    split
    · simp
    · match h : splitOnChar c xs with
      | [] => simp
      | g :: gs => simp

theorem splitOnChar_of_not_mem {c : Char} {s : List Char} (h : ∀ x ∈ s, x ≠ c) :
    splitOnChar c s = [s] := by
  induction s with
  | nil => rfl
  | cons x xs ih =>
    have hx : x ≠ c := h x (by simp)
    have hxs : splitOnChar c xs = [xs] := ih (fun y hy => h y (by simp [hy]))
    simp [splitOnChar, hx, hxs]

theorem splitOnChar_append {c : Char} {a : List Char} (b : List Char)
    (h : ∀ x ∈ a, x ≠ c) :
    splitOnChar c (a ++ c :: b) = a :: splitOnChar c b := by
  induction a with
  | nil => simp [splitOnChar]
  | cons x xs ih =>
    have hx : x ≠ c := h x (by simp)
    have hxs := ih (fun y hy => h y (by simp [hy]))
    show splitOnChar c (x :: (xs ++ c :: b)) = _
    rw [splitOnChar, if_neg hx, hxs]

/-! ### Round-trip lemmas -/

theorem pad2_all_digit (n : ℕ) : ∀ c ∈ pad2 n, isDigitCh c = true := by
  unfold pad2
  split
  · intro c hc
    rcases List.mem_cons.mp hc with h | h
    · subst h; decide
    · exact natDigits_all_digit n c h
  · exact natDigits_all_digit n

theorem pad3_all_digit (n : ℕ) : ∀ c ∈ pad3 n, isDigitCh c = true := by
  unfold pad3
  split
  · intro c hc
    rcases List.mem_cons.mp hc with h | h
    · subst h; decide
    rcases List.mem_cons.mp h with h | h
    · subst h; decide
    · exact natDigits_all_digit n c h
  split
  · intro c hc
    rcases List.mem_cons.mp hc with h | h
    · subst h; decide
    · exact natDigits_all_digit n c h
  · exact natDigits_all_digit n

theorem digit_ne_colon {c : Char} (h : isDigitCh c = true) : c ≠ ':' := by
  intro hc; subst hc; simp [isDigitCh, Char.isDigit] at h

theorem digit_ne_dot {c : Char} (h : isDigitCh c = true) : c ≠ '.' := by
  intro hc; subst hc; simp [isDigitCh, Char.isDigit] at h

theorem digitsVal_pad2 (n : ℕ) : digitsVal (pad2 n) = n := by
  unfold pad2
  split <;> simp [digitsVal_cons_zero, digitsVal_natDigits]

theorem digitsVal_pad3 (n : ℕ) : digitsVal (pad3 n) = n := by
  unfold pad3
  split
  · simp [digitsVal_cons_zero, digitsVal_natDigits]
  split <;> simp [digitsVal_cons_zero, digitsVal_natDigits]

theorem natDigits_length_one {n : ℕ} (h : n < 10) : (natDigits n).length = 1 := by
  rw [natDigits_eq, if_pos h]
  rfl

theorem natDigits_length_two {n : ℕ} (h1 : 10 ≤ n) (h2 : n < 100) :
    (natDigits n).length = 2 := by
  rw [natDigits_eq, if_neg (by omega)]
  have : (natDigits (n / 10)).length = 1 := natDigits_length_one (by omega)
  simp [this]

theorem natDigits_length_three {n : ℕ} (h1 : 100 ≤ n) (h2 : n < 1000) :
    (natDigits n).length = 3 := by
  rw [natDigits_eq, if_neg (by omega)]
  have : (natDigits (n / 10)).length = 2 := natDigits_length_two (by omega) (by omega)
  simp [this]

theorem pad3_length (n : ℕ) (h : n < 1000) : (pad3 n).length = 3 := by
  unfold pad3
  split
  · next h1 => simp [natDigits_length_one h1]
  split
  · next h1 h2 => simp [natDigits_length_two (n := n) (by omega) (by omega)]
  · next h1 h2 => exact natDigits_length_three (by omega) h

theorem jsNum_digits {s : List Char} (hne : s ≠ [])
    (hdig : ∀ c ∈ s, isDigitCh c = true) : jsNum s = some ((digitsVal s : ℚ)) := by
  have hnd : ∀ c ∈ s, c ≠ '.' := fun c hc => digit_ne_dot (hdig c hc)
  have hcond : s.all isDigitCh = true := by
    simp only [List.all_eq_true]; exact hdig
  unfold jsNum
  rw [if_neg hne, splitOnChar_of_not_mem hnd]
  change (if s.all isDigitCh = true then some ((digitsVal s : ℚ)) else none) = _
  rw [if_pos hcond]

theorem jsNum_int_frac {a b : List Char} (ha : ∀ c ∈ a, isDigitCh c = true)
    (hb : ∀ c ∈ b, isDigitCh c = true) (hne : a ≠ []) :
    jsNum (a ++ '.' :: b) = some ((digitsVal a : ℚ) + (digitsVal b : ℚ) / 10 ^ b.length) := by
  have had : ∀ c ∈ a, c ≠ '.' := fun c hc => digit_ne_dot (ha c hc)
  have hbd : ∀ c ∈ b, c ≠ '.' := fun c hc => digit_ne_dot (hb c hc)
  have hcond : ((!a.isEmpty || !b.isEmpty) && a.all isDigitCh && b.all isDigitCh) = true := by
    simp only [Bool.and_eq_true, Bool.or_eq_true, Bool.not_eq_true', List.all_eq_true]
    exact ⟨⟨Or.inl (by simpa [List.isEmpty_iff] using hne), ha⟩, hb⟩
  unfold jsNum
  rw [if_neg (by simp [hne]), splitOnChar_append b had, splitOnChar_of_not_mem hbd]
  change (if ((!a.isEmpty || !b.isEmpty) && a.all isDigitCh && b.all isDigitCh) = true
      then some ((digitsVal a : ℚ) + (digitsVal b : ℚ) / 10 ^ b.length) else none) = _
  rw [if_pos hcond]

/-- The `"HH:MM:SS.mmm"` string produced by `msToTime` splits back into its
three `":"`-parts. -/
theorem splitColon_msToTime (h m s : ℕ) (mi : ℕ) :
    splitOnChar ':' (pad2 h ++ ':' :: pad2 m ++ ':' :: pad2 s ++ '.' :: pad3 mi) =
      [pad2 h, pad2 m, pad2 s ++ '.' :: pad3 mi] := by
  have hh : ∀ c ∈ pad2 h, c ≠ ':' := fun c hc => digit_ne_colon (pad2_all_digit h c hc)
  have hm : ∀ c ∈ pad2 m, c ≠ ':' := fun c hc => digit_ne_colon (pad2_all_digit m c hc)
  have hrest : ∀ c ∈ pad2 s ++ '.' :: pad3 mi, c ≠ ':' := by
    intro c hc
    rcases List.mem_append.mp hc with hc | hc
    · exact digit_ne_colon (pad2_all_digit s c hc)
    rcases List.mem_cons.mp hc with hc | hc
    · subst hc; decide
    · exact digit_ne_colon (pad3_all_digit mi c hc)
  rw [show pad2 h ++ ':' :: pad2 m ++ ':' :: pad2 s ++ '.' :: pad3 mi =
        pad2 h ++ ':' :: (pad2 m ++ ':' :: (pad2 s ++ '.' :: pad3 mi)) by simp,
    splitOnChar_append _ hh, splitOnChar_append _ hm, splitOnChar_of_not_mem hrest]

theorem pad2_ne_nil (n : ℕ) : pad2 n ≠ [] := by
  unfold pad2
  split
  · simp
  · exact natDigits_ne_nil n

theorem pad2_length {n : ℕ} (h : n < 100) : (pad2 n).length = 2 := by
  unfold pad2
  split
  · next h1 => simp [natDigits_length_one h1]
  · next h1 => exact natDigits_length_two (by omega) h

theorem msToTime_natCast (ms : ℕ) :
    msToTime (ms : ℤ) =
      pad2 (ms / 1000 / 3600) ++ ':' :: pad2 (ms / 1000 % 3600 / 60) ++
        ':' :: pad2 (ms / 1000 % 60) ++ '.' :: pad3 (ms % 1000) := by
  unfold msToTime
  simp only [Int.toNat_natCast]
  have h2 : ms - ms / 1000 * 1000 = ms % 1000 := by omega
  rw [h2, round_natCast, Int.toNat_natCast]

theorem timeToMs_hmsmi (h m s mi : ℕ) (hmi : mi < 1000) :
    timeToMs (pad2 h ++ ':' :: pad2 m ++ ':' :: pad2 s ++ '.' :: pad3 mi) =
      ((h * 3600000 + m * 60000 + s * 1000 + mi : ℕ) : ℤ) := by
  unfold timeToMs
  rw [splitColon_msToTime]
  rw [if_neg (by simp)]
  have hval2 : jsNum (pad2 h) = some ((h : ℚ)) := by
    rw [jsNum_digits (pad2_ne_nil h) (pad2_all_digit h), digitsVal_pad2]
  have hval3 : jsNum (pad2 m) = some ((m : ℚ)) := by
    rw [jsNum_digits (pad2_ne_nil m) (pad2_all_digit m), digitsVal_pad2]
  have hval4 : jsNum (pad2 s ++ '.' :: pad3 mi) =
      some ((s : ℚ) + (mi : ℚ) / 1000) := by
    rw [jsNum_int_frac (pad2_all_digit s) (pad3_all_digit mi) (pad2_ne_nil s),
      digitsVal_pad2, digitsVal_pad3, pad3_length mi hmi]
    norm_num
  simp only [List.getD_cons_zero, List.getD_cons_succ, hval2, hval3, hval4, jsOr0,
    Option.getD_some]
  have harg : (((h : ℚ) * 3600 + (m : ℚ) * 60 + ((s : ℚ) + (mi : ℚ) / 1000)) * 1000) =
      ((h * 3600000 + m * 60000 + s * 1000 + mi : ℕ) : ℚ) := by
    push_cast
    ring
  rw [harg, round_natCast]

/-- **C8.** For every non-negative integer millisecond value `ms`,
formatting with `msToTime` and parsing back with `timeToMs` round-trips
exactly; the formatted string is `HH:MM:SS.mmm` with minutes and seconds
zero-padded to two digits and milliseconds to three. -/
theorem timeToMs_msToTime_roundTrip (ms : ℕ) :
    timeToMs (msToTime (ms : ℤ)) = (ms : ℤ) ∧
    ∃ hh mmc ssc mic : List Char,
      msToTime (ms : ℤ) = hh ++ ':' :: mmc ++ ':' :: ssc ++ '.' :: mic ∧
      mmc.length = 2 ∧ ssc.length = 2 ∧ mic.length = 3 ∧
      (∀ c ∈ hh, isDigitCh c = true) ∧ (∀ c ∈ mmc, isDigitCh c = true) ∧
      (∀ c ∈ ssc, isDigitCh c = true) ∧ (∀ c ∈ mic, isDigitCh c = true) := by
  have hmt := msToTime_natCast ms
  have hmi_lt : ms % 1000 < 1000 := by omega
  have hm_lt : ms / 1000 % 3600 / 60 < 100 := by omega
  have hs_lt : ms / 1000 % 60 < 100 := by omega
  constructor
  · rw [hmt, timeToMs_hmsmi _ _ _ _ hmi_lt]
    have : ms / 1000 / 3600 * 3600000 + ms / 1000 % 3600 / 60 * 60000 +
        ms / 1000 % 60 * 1000 + ms % 1000 = ms := by omega
    rw [this]
  · exact ⟨pad2 (ms / 1000 / 3600), pad2 (ms / 1000 % 3600 / 60), pad2 (ms / 1000 % 60),
      pad3 (ms % 1000), by simpa using hmt,
      pad2_length hm_lt, pad2_length hs_lt, pad3_length _ hmi_lt,
      pad2_all_digit _, pad2_all_digit _, pad2_all_digit _, pad3_all_digit _⟩

/-- **C2.** For every frame sequence and multiplier, `computeVadThreshold`
returns exactly `median(energies) * multiplier`, where `median` is
order-independent (invariant under permutation of its input) and, on a
sorted copy, takes the middle element for odd counts and the average of
the two middle elements for even counts; the empty frame sequence yields
`+∞`. -/
theorem claim_C2_computeVadThreshold_spec :
    (∀ m : ℚ, computeVadThreshold [] m = .posInf) ∧
    (∀ (frames : List Frame) (m : ℚ), frames ≠ [] →
      computeVadThreshold frames m = .val (median (frames.map (·.energy)) * m)) ∧
    (∀ xs ys : List ℚ, xs.Perm ys → median xs = median ys) ∧
    (∀ xs : List ℚ, xs.Sorted (· ≤ ·) → xs.length % 2 = 1 →
      median xs = xs.getD ((xs.length - 1) / 2) 0) ∧
    (∀ xs : List ℚ, xs.Sorted (· ≤ ·) → xs.length % 2 = 0 →
      median xs = (xs.getD (xs.length / 2 - 1) 0 + xs.getD (xs.length / 2) 0) / 2) := by
  refine ⟨fun m => rfl, fun frames m h => ?_, fun xs ys h => ?_, fun xs hs hodd => ?_,
    fun xs hs heven => ?_⟩
  · unfold computeVadThreshold
    rw [if_neg (by simpa using h)]
  · unfold median
    have key : xs.mergeSort (fun x y => x ≤ y) = ys.mergeSort (fun x y => x ≤ y) :=
      List.eq_of_perm_of_sorted
        (((List.mergeSort_perm xs _).trans h).trans (List.mergeSort_perm ys _).symm)
        (List.sorted_mergeSort' xs) (List.sorted_mergeSort' ys)
    rw [key]
  · have key : xs.mergeSort (fun x y => x ≤ y) = xs := List.mergeSort_eq_self hs
    unfold median
    rw [key, if_pos hodd]
  · have key : xs.mergeSort (fun x y => x ≤ y) = xs := List.mergeSort_eq_self hs
    unfold median
    rw [key, if_neg (by omega)]

/-- Witness for C2 at a concrete two-frame input. -/
theorem claim_C2_witness :
    computeVadThreshold [⟨0, 1, 2⟩, ⟨1, 2, 4⟩] (3 / 2) =
      .val (median [2, 4] * (3 / 2)) :=
  claim_C2_computeVadThreshold_spec.2.1 [⟨0, 1, 2⟩, ⟨1, 2, 4⟩] (3 / 2) (by decide)

/-- **C6.** The feature vector of voiced frame `i` (0-based within the
voiced subsequence) is `[energy_i, energy_i - energy_(i-1)]` with the
delta equal to `0` at `i = 0`; the delta is computed between consecutive
*voiced* frames in emission order, so for a filtered sequence it uses the
previous element of the filtered list no matter how many silent frames
were dropped between them. -/
theorem claim_C6_buildFeatures_spec :
    (∀ voiced : List VoicedFrame, (buildFeatures voiced).length = voiced.length) ∧
    (∀ (voiced : List VoicedFrame) (i : ℕ) (f : VoicedFrame),
      voiced.get? i = some f →
      (buildFeatures voiced).get? i =
        some (f.energy,
          if i = 0 then 0
          else f.energy - (((voiced.get? (i - 1)).map (·.energy)).getD 0))) ∧
    (∀ (frames : List Frame) (thr : ℚ) (i : ℕ) (f g : VoicedFrame),
      (filterVoicedFrames frames thr).get? i = some f →
      (filterVoicedFrames frames thr).get? (i - 1) = some g → 0 < i →
      (buildFeatures (filterVoicedFrames frames thr)).get? i =
        some (f.energy, f.energy - g.energy)) := by
  have hlen : ∀ voiced : List VoicedFrame, (buildFeatures voiced).length = voiced.length :=
    fun voiced => by simp [buildFeatures]
  have hget : ∀ (voiced : List VoicedFrame) (i : ℕ) (f : VoicedFrame),
      voiced.get? i = some f →
      (buildFeatures voiced).get? i =
        some (f.energy,
          if i = 0 then 0
          else f.energy - (((voiced.get? (i - 1)).map (·.energy)).getD 0)) := by
    intro voiced i f hf
    obtain ⟨hi, hv⟩ := List.get?_eq_some.mp hf
    have hi' : i < (buildFeatures voiced).length := by rw [hlen]; exact hi
    simp only [buildFeatures] at hi' ⊢
    rw [List.get?_eq_get hi', List.get_mapIdx voiced _ i hi, hv]
    by_cases h0 : i = 0
    · simp [h0]
    · simp [h0, Nat.pos_of_ne_zero h0]
  refine ⟨hlen, hget, fun frames thr i f g hf hg h0 => ?_⟩
  rw [hget _ i f hf, if_neg (by omega), hg]
  rfl

/-- Witness for C6: a two-element voiced sequence whose frames have
non-adjacent original indices, with the delta taken between them. -/
theorem claim_C6_witness :
    (buildFeatures [⟨0, 1, 5, 0⟩, ⟨7, 8, 9, 7⟩]).get? 1 = some (9, 9 - 5) := by
  have h := claim_C6_buildFeatures_spec.2.1 [⟨0, 1, 5, 0⟩, ⟨7, 8, 9, 7⟩] 1 ⟨7, 8, 9, 7⟩ rfl
  simpa using h

/-! ### C7: frame extraction -/

theorem rangeFold_sumSq (pcm : List ℚ) : ∀ (n i : ℕ), i + n ≤ pcm.length →
    (List.range n).foldl (fun a j => a + pcm.getD (i + j) 0 * pcm.getD (i + j) 0) 0 =
      (((pcm.drop i).take n).map (fun x => x * x)).sum := by
  intro n
  induction n with
  | zero => intro i h; simp
  | succ n ih =>
    intro i h
    rw [List.range_succ, List.foldl_append, ih i (by omega)]
    have hin : i + n < pcm.length := by omega
    have hsome : pcm[i + n]? = some pcm[i + n] := List.getElem?_eq_getElem hin
    have hgd : pcm.getD (i + n) 0 = pcm[i + n] := by
      simp [List.getD, List.get?_eq_getElem?, hsome]
    rw [List.take_succ, List.getElem?_drop, hsome]
    simp [hgd, hsome]

theorem framesGo_eq (L : ℚ → ℚ) (pcm : List ℚ) (sr fm : ℚ) (hop : ℕ)
    (hhop : hop ≠ 0) : ∀ (fuel i : ℕ), pcm.length + 1 ≤ fuel + i →
    framesGo L pcm sr fm hop i fuel =
      (List.range ((pcm.length - i) / hop)).map
        (fun k => frameAt L pcm sr fm hop (i + k * hop)) := by
  intro fuel
  induction fuel with
  | zero =>
    intro i hf
    have h0 : pcm.length - i = 0 := by omega
    rw [h0]
    simp [framesGo]
  | succ fuel ih =>
    intro i hf
    simp only [framesGo]
    by_cases hcond : i + hop ≤ pcm.length
    · rw [if_pos ⟨hhop, hcond⟩, ih (i + hop) (by omega)]
      have h1 : 0 < hop := by omega
      have h2 : hop ≤ pcm.length - i := by omega
      have harg : pcm.length - i - hop = pcm.length - (i + hop) := by omega
      have hdiv : (pcm.length - i) / hop = (pcm.length - (i + hop)) / hop + 1 := by
        rw [Nat.div_eq_sub_div h1 h2, harg]
      rw [hdiv, List.range_succ_eq_map, List.map_cons, List.map_map]
      congr 1
      · congr 1
        simp
      · exact (List.map_congr_left (fun k hk => by
          simp only [Function.comp_apply]
          congr 1
          rw [Nat.succ_mul]
          ring)).symm
    · rw [if_neg (by tauto)]
      rw [Nat.div_eq_of_lt (by omega)]
      simp

/-- **C7.** With `hop = ⌊sampleRate * frameMs / 1000⌋ ≥ 1`,
`computeFrameEnergies` produces exactly one frame per full window of
`hop` samples (`⌊pcm.length / hop⌋` frames in total, dropping the
incomplete tail); frame `k` covers samples `[k·hop, (k+1)·hop) ⊆ bounds`,
has `start = k·hop / sampleRate`, `end - start = frameMs/1000`, and
energy `log10(1e-9 + mean of squared samples of its window)`. -/
theorem claim_C7_computeFrameEnergies_spec (L : ℚ → ℚ) (pcm : List ℚ)
    (sampleRate frameMs : ℚ) (hop : ℕ)
    (hhop : hop = (⌊sampleRate * frameMs / 1000⌋).toNat) (h1 : 1 ≤ hop) :
    (computeFrameEnergies L pcm sampleRate frameMs).length = pcm.length / hop ∧
    (∀ (k : ℕ) (f : Frame),
      (computeFrameEnergies L pcm sampleRate frameMs).get? k = some f →
      (k + 1) * hop ≤ pcm.length ∧
      f.start = ((k * hop : ℕ) : ℚ) / sampleRate ∧
      f.stop = f.start + frameMs / 1000 ∧
      f.stop - f.start = frameMs / 1000 ∧
      f.energy = L (1 / 1000000000 +
        ((((pcm.drop (k * hop)).take hop).map (fun x => x * x)).sum) / (hop : ℚ))) := by
  have hkey : computeFrameEnergies L pcm sampleRate frameMs =
      (List.range (pcm.length / hop)).map
        (fun k => frameAt L pcm sampleRate frameMs hop (0 + k * hop)) := by
    unfold computeFrameEnergies
    rw [← hhop, framesGo_eq L pcm sampleRate frameMs hop (by omega) (pcm.length + 1) 0
      (by omega)]
    simp
  constructor
  · rw [hkey]; simp
  · intro k f hf
    rw [hkey] at hf
    rw [List.get?_map] at hf
    by_cases hk : k < pcm.length / hop
    · rw [List.get?_range hk] at hf
      replace hf := Option.some.inj hf
      have hb1 : k + 1 ≤ pcm.length / hop := hk
      have hbound : (k + 1) * hop ≤ pcm.length :=
        (Nat.le_div_iff_mul_le (by omega : 0 < hop)).mp hb1
      have hmul : (k + 1) * hop = k * hop + hop := by ring
      have hwin : k * hop + hop ≤ pcm.length := by omega
      refine ⟨hbound, ?_, ?_, ?_, ?_⟩
      · rw [← hf]; simp [frameAt]
      · rw [← hf]; simp [frameAt]
      · rw [← hf]; simp [frameAt]
      · rw [← hf]
        simp only [frameAt, Nat.zero_add]
        rw [rangeFold_sumSq pcm hop (k * hop) hwin]
    · rw [List.get?_eq_none.mpr (by simpa using hk)] at hf
      exact absurd hf (by simp)

/-- Witness for C7 at a concrete four-sample buffer with `hop = 2`. -/
theorem claim_C7_witness :
    (computeFrameEnergies id [1, 2, 3, 4, 5] 1 2000).length = 2 ∧
    ∀ f, (computeFrameEnergies id [1, 2, 3, 4, 5] 1 2000).get? 1 = some f →
      f.stop - f.start = 2 := by
  have h := claim_C7_computeFrameEnergies_spec id [1, 2, 3, 4, 5] 1 2000 2
    (by norm_num
        rfl) (by norm_num)
  refine ⟨by rw [h.1]; rfl, fun f hf => ?_⟩
  have := (h.2 1 f hf).2.2.2.1
  rw [this]
  norm_num

/-! ### Alignment: `toSeconds`, `mapExcept` and the claims C1, C5, C10 -/

theorem mapExcept_ok {α β ε : Type*} {f : α → Except ε β} :
    ∀ {l : List α} {out : List β}, mapExcept f l = .ok out →
      out.length = l.length ∧
      ∀ i a, l.get? i = some a → ∃ b, out.get? i = some b ∧ f a = .ok b := by
  intro l
  induction l with
  | nil =>
    intro out h
    simp only [mapExcept] at h
    cases h
    exact ⟨rfl, by simp⟩
  | cons a as ih =>
    intro out h
    simp only [mapExcept] at h
    cases hfa : f a with
    | error e => rw [hfa] at h; exact absurd h (by simp)
    | ok b =>
      rw [hfa] at h
      cases hrest : mapExcept f as with
      | error e => rw [hrest] at h; exact absurd h (by simp)
      | ok bs =>
        rw [hrest] at h
        cases h
        obtain ⟨hlen, hpt⟩ := ih hrest
        refine ⟨by simp [hlen], ?_⟩
        intro i x hx
        cases i with
        | zero =>
          simp only [List.get?_cons_zero] at hx ⊢
          cases hx
          exact ⟨b, rfl, hfa⟩
        | succ i =>
          simp only [List.get?_cons_succ] at hx ⊢
          exact hpt i x hx

theorem toSeconds_error {ts : List Char} (h : (splitOnChar ':' ts).length < 3) :
    toSeconds ts = .error () := by
  unfold toSeconds
  match hsp : splitOnChar ':' ts with
  | [] => rfl
  | [_] => rfl
  | [_, _] => rfl
  | _ :: _ :: _ :: _ => rw [hsp] at h; exact absurd h (by simp)

theorem toSeconds_ok {ts hh mm rest : List Char} {other : List (List Char)}
    (h : splitOnChar ':' ts = hh :: mm :: rest :: other) :
    toSeconds ts = .ok
      (nadd (nadd (nadd ((jsNum hh).map (· * 3600)) ((jsNum mm).map (· * 60)))
        (jsNum ((splitOnChar '.' rest).headD [])))
        ((match (splitOnChar '.' rest).get? 1 with
          | none => some 0
          | some m => if m.isEmpty then some 0 else jsNum m).map (· / 1000))) := by
  unfold toSeconds
  rw [h]

/-- **C1 (amended).** Only a missing milliseconds component is tolerated:
when a timestamp has at least three `":"`-separated parts, `toSeconds`
does not throw, and when its seconds part carries no `"."` the
milliseconds contribution is `0`; consequently `assignSpeakersToTranscript`
does not throw on transcripts all of whose timestamps have three
`":"`-parts.  But a timestamp with fewer than three `":"`-separated
components makes `toSeconds` throw a `TypeError` (on
`undefined.split(".")`), aborting the whole alignment pass. -/
theorem claim_C1_toSeconds_amended :
    (∀ ts : List Char, 3 ≤ (splitOnChar ':' ts).length → ∃ v, toSeconds ts = .ok v) ∧
    (∀ ts : List Char, (splitOnChar ':' ts).length < 3 → toSeconds ts = .error ()) ∧
    (∀ ts hh mm rest : List Char, splitOnChar ':' ts = [hh, mm, rest] →
      (∀ c ∈ rest, c ≠ '.') →
      toSeconds ts = .ok (nadd (nadd (nadd ((jsNum hh).map (· * 3600))
        ((jsNum mm).map (· * 60))) (jsNum rest)) (some 0))) ∧
    (∀ (transcript : List ITranscriptLine) (dia : DiarizationResult),
      (∀ line ∈ transcript, 3 ≤ (splitOnChar ':' line.start).length ∧
        3 ≤ (splitOnChar ':' line.stop).length) →
      ∃ out, assignSpeakersToTranscript transcript dia = .ok out) := by
  have hok : ∀ ts : List Char, 3 ≤ (splitOnChar ':' ts).length →
      ∃ v, toSeconds ts = .ok v := by
    intro ts h
    match hsp : splitOnChar ':' ts with
    | [] => rw [hsp] at h; simp at h
    | [_] => rw [hsp] at h; simp at h
    | [_, _] => rw [hsp] at h; simp at h
    | hh :: mm :: rest :: other => exact ⟨_, toSeconds_ok hsp⟩
  refine ⟨hok, fun ts h => toSeconds_error h, ?_, ?_⟩
  · intro ts hh mm rest hsp hnd
    rw [toSeconds_ok hsp, splitOnChar_of_not_mem hnd]
    simp
  · intro transcript dia hts
    induction transcript with
    | nil => exact ⟨[], rfl⟩
    | cons line rest ih =>
      obtain ⟨out, hout⟩ := ih (fun l hl => hts l (by simp [hl]))
      obtain ⟨s, hs⟩ := hok line.start (hts line (by simp)).1
      obtain ⟨e, he⟩ := hok line.stop (hts line (by simp)).2
      refine Exists.intro
        (List.cons
          { start := line.start, stop := line.stop, speech := line.speech,
            speaker := (dia.segments.find? (fun seg => segOverlap s e seg)).map (·.speaker) }
          out) ?_
      show mapExcept (assignLine dia) (line :: rest) = _
      simp only [mapExcept]
      rw [show assignLine dia line = .ok
        { start := line.start, stop := line.stop, speech := line.speech,
          speaker := (dia.segments.find? (fun seg => segOverlap s e seg)).map (·.speaker) }
        from by unfold assignLine; rw [hs, he]]
      rw [show mapExcept (assignLine dia) rest = .ok out from hout]

/-- Counterexample to C1 as stated: a transcript line whose start
timestamp `"00:00"` is missing its seconds component makes
`assignSpeakersToTranscript` throw instead of degrading. -/
theorem claim_C1_counterexample :
    assignSpeakersToTranscript
      [{ start := "00:00".data, stop := "00:00:01.000".data,
         speech := "x".data, speaker := none }] ⟨[]⟩ = .error () := rfl

/-- Witness for the amended C1: `toSeconds` on a two-part timestamp
throws, and on a three-part timestamp without milliseconds it succeeds. -/
theorem claim_C1_witness :
    toSeconds "00:00".data = .error () ∧
    toSeconds "12:34:56".data = .ok (nadd (nadd (nadd
      ((jsNum "12".data).map (· * 3600)) ((jsNum "34".data).map (· * 60)))
      (jsNum "56".data)) (some 0)) :=
  ⟨claim_C1_toSeconds_amended.2.1 "00:00".data (by decide),
   claim_C1_toSeconds_amended.2.2.1 "12:34:56".data "12".data "34".data "56".data
     (by decide) (by decide)⟩

/-- **C10.** Whenever `assignSpeakersToTranscript` does not throw, its
output has the same length and order as the input transcript, each output
line keeps the input line's `start`, `end` and `speech` fields verbatim,
and only the `speaker` field is (re)set — to the speaker of the first
overlapping segment, or `undefined`. -/
theorem claim_C10_assign_frame (transcript : List ITranscriptLine)
    (dia : DiarizationResult) (out : List ITranscriptLine)
    (hout : assignSpeakersToTranscript transcript dia = .ok out) :
    out.length = transcript.length ∧
    ∀ i line, transcript.get? i = some line →
      ∃ sv ev, toSeconds line.start = .ok sv ∧ toSeconds line.stop = .ok ev ∧
        out.get? i = some
          { start := line.start, stop := line.stop, speech := line.speech,
            speaker := (dia.segments.find? (fun seg => segOverlap sv ev seg)).map
              (·.speaker) } := by
  obtain ⟨hlen, hpt⟩ := mapExcept_ok hout
  refine ⟨hlen, fun i line hline => ?_⟩
  obtain ⟨b, hb, hfb⟩ := hpt i line hline
  unfold assignLine at hfb
  cases hs : toSeconds line.start with
  | error e => rw [hs] at hfb; exact absurd hfb (by simp)
  | ok sv =>
    rw [hs] at hfb
    cases he : toSeconds line.stop with
    | error e => rw [he] at hfb; exact absurd hfb (by simp)
    | ok ev =>
      rw [he] at hfb
      cases hfb
      exact ⟨sv, ev, rfl, rfl, hb⟩

/-- Witness for C10 at a one-line transcript and a one-segment
diarization result (evaluated concretely). -/
theorem claim_C10_witness :
    ([{ start := "00:00:00.000".data, stop := "00:00:02.000".data,
        speech := "hi".data, speaker := some "S0".data }] :
      List ITranscriptLine).length = 1 := by
  have hs : toSeconds "00:00:00.000".data = .ok (some 0) := by
    simp +decide [toSeconds, splitOnChar, jsNum, digitsVal, nadd]
  have he : toSeconds "00:00:02.000".data = .ok (some 2) := by
    simp +decide [toSeconds, splitOnChar, jsNum, digitsVal, nadd]
  have hout : assignSpeakersToTranscript
      [{ start := "00:00:00.000".data, stop := "00:00:02.000".data,
         speech := "hi".data, speaker := none }]
      ⟨[{ start := 1/2, stop := 1, speaker := "S0".data }]⟩ = .ok
      [{ start := "00:00:00.000".data, stop := "00:00:02.000".data,
         speech := "hi".data, speaker := some "S0".data }] := by
    show mapExcept _ _ = _
    simp only [mapExcept, assignLine, hs, he]
    norm_num [segOverlap, jsLe, jsGe, List.find?]
  rw [(claim_C10_assign_frame _ _ _ hout).1]
  rfl

/-- `segOverlap` on two well-defined (non-`NaN`) bounds is the strict
interval intersection test. -/
theorem segOverlap_some_iff {s e : ℚ} {seg : DiaSegment} :
    segOverlap (some s) (some e) seg = true ↔ seg.start < e ∧ s < seg.stop := by
  simp [segOverlap, jsLe, jsGe, not_or, not_le]

/-- **C5.** Each transcript line (with well-formed bounds `[s, e]`) is
assigned the speaker of the first diarization segment overlapping it
under `¬(e ≤ seg.start ∨ s ≥ seg.end)`; a line fully contained in a
segment of a pairwise-disjoint segment list inherits exactly that
segment's speaker, and a line overlapping no segment has no speaker. -/
theorem claim_C5_assign_overlap (transcript : List ITranscriptLine)
    (dia : DiarizationResult) (out : List ITranscriptLine)
    (hout : assignSpeakersToTranscript transcript dia = .ok out)
    (i : ℕ) (line oline : ITranscriptLine)
    (hline : transcript.get? i = some line) (holine : out.get? i = some oline)
    (s e : ℚ) (hs : toSeconds line.start = .ok (some s))
    (he : toSeconds line.stop = .ok (some e)) :
    oline.speaker =
      (dia.segments.find? (fun seg => segOverlap (some s) (some e) seg)).map (·.speaker) ∧
    (∀ seg ∈ dia.segments,
      dia.segments.Pairwise (fun a b => a.stop ≤ b.start ∨ b.stop ≤ a.start) →
      seg.start ≤ s → e ≤ seg.stop → s < e → oline.speaker = some seg.speaker) ∧
    ((∀ seg ∈ dia.segments, segOverlap (some s) (some e) seg = false) →
      oline.speaker = none) := by
  obtain ⟨hlen, hpt⟩ := mapExcept_ok hout
  obtain ⟨b, hb, hfb⟩ := hpt i line hline
  rw [holine] at hb
  obtain rfl : oline = b := Option.some.inj hb
  unfold assignLine at hfb
  rw [hs, he] at hfb
  obtain rfl := (Except.ok.inj hfb).symm
  refine ⟨rfl, ?_, ?_⟩
  · intro seg hseg hpw hstart hstop hlt
    have hov : segOverlap (some s) (some e) seg = true :=
      segOverlap_some_iff.mpr ⟨by linarith, by linarith⟩
    cases hfind : dia.segments.find? (fun seg => segOverlap (some s) (some e) seg) with
    | none =>
      rw [List.find?_eq_none] at hfind
      exact absurd hov (by simpa using hfind seg hseg)
    | some seg0 =>
      have hov0 := segOverlap_some_iff.mp (List.find?_some hfind)
      have hmem0 := List.mem_of_find?_eq_some hfind
      have hspk : seg0.speaker = seg.speaker := by
        by_cases heq : seg0 = seg
        · rw [heq]
        · exfalso
          have hsymm : Symmetric (fun a b : DiaSegment =>
              a.stop ≤ b.start ∨ b.stop ≤ a.start) := fun a b h => h.symm
          have hR := hpw.forall hsymm hmem0 hseg heq
          rcases hR with h1 | h1
          · linarith
          · linarith
      simp [hspk]
  · intro hall
    rw [List.find?_eq_none.mpr (fun x hx => by simp [hall x hx])]
    rfl

/-- Witness for C5: a line `[0, 2]` overlapping the single segment
`[1/2, 1)` receives that segment's speaker. -/
theorem claim_C5_witness :
    ({ start := "00:00:00.000".data, stop := "00:00:02.000".data,
       speech := "hi".data, speaker := some "S0".data } : ITranscriptLine).speaker =
      (([{ start := 1/2, stop := 1, speaker := "S0".data }] : List DiaSegment).find?
        (fun seg => segOverlap (some 0) (some 2) seg)).map (·.speaker) := by
  have hs : toSeconds "00:00:00.000".data = .ok (some 0) := by
    simp +decide [toSeconds, splitOnChar, jsNum, digitsVal, nadd]
  have he : toSeconds "00:00:02.000".data = .ok (some 2) := by
    simp +decide [toSeconds, splitOnChar, jsNum, digitsVal, nadd]
  have hout : assignSpeakersToTranscript
      [{ start := "00:00:00.000".data, stop := "00:00:02.000".data,
         speech := "hi".data, speaker := none }]
      ⟨[{ start := 1/2, stop := 1, speaker := "S0".data }]⟩ = .ok
      [{ start := "00:00:00.000".data, stop := "00:00:02.000".data,
         speech := "hi".data, speaker := some "S0".data }] := by
    show mapExcept _ _ = _
    simp only [mapExcept, assignLine, hs, he]
    norm_num [segOverlap, jsLe, jsGe, List.find?]
  exact (claim_C5_assign_overlap _ _ _ hout 0 _ _ rfl rfl 0 2 hs he).1

/-- **C9.** On the three word-level lines `(0.0, 0.3) "Hi"`,
`(0.3, 0.5) "."` and `(1.2, 1.5) "Bye"` (timestamps in the wire format
`HH:MM:SS.mmm`) with the default `maxGapMs = 600`, the merger yields
exactly two lines: `0.0–0.5 "Hi."` (the punctuation token appended with
no separating space) and `1.2–1.5 "Bye"`; the 700 ms gap before `"Bye"`
exceeds 600 ms, so `"Bye"` starts a new line. -/
theorem claim_C9_merge_concrete :
    mergeWordLevelTranscript
      [{ start := "00:00:00.000".data, stop := "00:00:00.300".data,
         speech := "Hi".data, speaker := none },
       { start := "00:00:00.300".data, stop := "00:00:00.500".data,
         speech := ".".data, speaker := none },
       { start := "00:00:01.200".data, stop := "00:00:01.500".data,
         speech := "Bye".data, speaker := none }] none =
      [{ start := "00:00:00.000".data, stop := "00:00:00.500".data,
         speech := "Hi.".data, speaker := none },
       { start := "00:00:01.200".data, stop := "00:00:01.500".data,
         speech := "Bye".data, speaker := none }] := by
  have e0 : timeToMs "00:00:00.000".data = 0 := by
    rw [show "00:00:00.000".data = pad2 0 ++ ':' :: pad2 0 ++ ':' :: pad2 0 ++ '.' :: pad3 0
      from by decide, timeToMs_hmsmi 0 0 0 0 (by norm_num)]
    norm_num
  have e1 : timeToMs "00:00:00.300".data = 300 := by
    rw [show "00:00:00.300".data = pad2 0 ++ ':' :: pad2 0 ++ ':' :: pad2 0 ++ '.' :: pad3 300
      from by decide, timeToMs_hmsmi 0 0 0 300 (by norm_num)]
    norm_num
  have e2 : timeToMs "00:00:00.500".data = 500 := by
    rw [show "00:00:00.500".data = pad2 0 ++ ':' :: pad2 0 ++ ':' :: pad2 0 ++ '.' :: pad3 500
      from by decide, timeToMs_hmsmi 0 0 0 500 (by norm_num)]
    norm_num
  have e3 : timeToMs "00:00:01.200".data = 1200 := by
    rw [show "00:00:01.200".data = pad2 0 ++ ':' :: pad2 0 ++ ':' :: pad2 1 ++ '.' :: pad3 200
      from by decide, timeToMs_hmsmi 0 0 1 200 (by norm_num)]
    norm_num
  have e4 : timeToMs "00:00:01.500".data = 1500 := by
    rw [show "00:00:01.500".data = pad2 0 ++ ':' :: pad2 0 ++ ':' :: pad2 1 ++ '.' :: pad3 500
      from by decide, timeToMs_hmsmi 0 0 1 500 (by norm_num)]
    norm_num
  have m0 : msToTime 0 = "00:00:00.000".data := by
    rw [show (0 : ℤ) = ((0 : ℕ) : ℤ) from rfl, msToTime_natCast]; decide
  have m2 : msToTime 500 = "00:00:00.500".data := by
    rw [show (500 : ℤ) = ((500 : ℕ) : ℤ) from rfl, msToTime_natCast]; decide
  have m3 : msToTime 1200 = "00:00:01.200".data := by
    rw [show (1200 : ℤ) = ((1200 : ℕ) : ℤ) from rfl, msToTime_natCast]; decide
  have m4 : msToTime 1500 = "00:00:01.500".data := by
    rw [show (1500 : ℤ) = ((1500 : ℕ) : ℤ) from rfl, msToTime_natCast]; decide
  simp +decide only [mergeWordLevelTranscript, mergeLoop, flush, e0, e1, e2, e3, e4,
    List.isEmpty, List.head?]
  norm_num [m0, m2, m3, m4]
  decide

/-- Processing one line from a fresh segment state flushes it unchanged,
provided the line is canonical (round-tripping timestamps, trimmed
speech, no empty-string speaker) and either ends a sentence or is the
last line. -/
theorem mergeLoop_step_eos (g c : ℤ) (acc : List ITranscriptLine)
    (x : ITranscriptLine) (rest : List ITranscriptLine)
    (hstart : msToTime (timeToMs x.start) = x.start)
    (hstop : msToTime (timeToMs x.stop) = x.stop)
    (htrim : jsTrim x.speech = x.speech)
    (hspk : x.speaker ≠ some [])
    (heos : isEndSentencePunct x.speech = true ∨ rest = []) :
    mergeLoop g c ⟨acc, [], none, none, none⟩ (x :: rest) =
      mergeLoop g c ⟨acc ++ [x], [], none, none, none⟩ rest := by
  have hcond : ∀ b1 b2 : Bool,
      (isEndSentencePunct x.speech || b1 || b2 || rest.isEmpty) = true := by
    intro b1 b2
    rcases heos with h | h
    · simp [h]
    · simp [h]
  have hspeaker :
      (if jsTruthyStr (if !(jsTruthyStr none) && jsTruthyStr x.speaker
          then x.speaker else (none : Option (List Char)))
        then (if !(jsTruthyStr none) && jsTruthyStr x.speaker
          then x.speaker else none) else none) = x.speaker := by
    cases hxs : x.speaker with
    | none => simp [jsTruthyStr]
    | some s =>
      cases s with
      | nil => exact absurd hxs hspk
      | cons ch cs => simp [jsTruthyStr]
  simp only [mergeLoop, List.isEmpty_nil, if_true, Bool.true_and]
  rw [if_pos (hcond _ _)]
  congr 1
  simp only [flush, List.flatten, List.append_nil]
  rw [htrim, hstart, hstop, hspeaker]

/-- The merge loop on a sequence of canonical sentence-level lines
appends them unchanged. -/
theorem mergeLoop_sentence_level (g c : ℤ) :
    ∀ (lines acc : List ITranscriptLine),
      (∀ l ∈ lines, msToTime (timeToMs l.start) = l.start ∧
        msToTime (timeToMs l.stop) = l.stop ∧ jsTrim l.speech = l.speech ∧
        l.speaker ≠ some []) →
      (∀ l ∈ lines.dropLast, isEndSentencePunct l.speech = true) →
      mergeLoop g c ⟨acc, [], none, none, none⟩ lines = acc ++ lines := by
  intro lines
  induction lines with
  | nil => intro acc _ _; simp [mergeLoop]
  | cons x rest ih =>
    intro acc hcanon heos
    obtain ⟨h1, h2, h3, h4⟩ := hcanon x (by simp)
    have hx : isEndSentencePunct x.speech = true ∨ rest = [] := by
      cases rest with
      | nil => exact Or.inr rfl
      | cons y t => exact Or.inl (heos x (by simp [List.dropLast]))
    rw [mergeLoop_step_eos g c acc x rest h1 h2 h3 h4 hx]
    cases rest with
    | nil => simp [mergeLoop]
    | cons y t =>
      rw [ih (acc ++ [x]) (fun l hl => hcanon l (by simp [hl]))
        (fun l hl => heos l (by simp [List.dropLast] at hl ⊢; tauto))]
      simp

/-- **C3.** `mergeWordLevelTranscript` is idempotent on already-merged
sentence-level input: if every line is canonical (timestamps in the wire
format so they round-trip, speech trimmed, speaker absent or non-empty)
and every line except possibly the last ends with sentence-ending
punctuation — which is exactly the shape of merged output whose gap and
character-count constraints were not the cause of any break — then
merging again returns the sequence unchanged, for any options. -/
theorem claim_C3_merge_idempotent (lines : List ITranscriptLine)
    (opts : Option MergeOptions)
    (hcanon : ∀ l ∈ lines, msToTime (timeToMs l.start) = l.start ∧
      msToTime (timeToMs l.stop) = l.stop ∧ jsTrim l.speech = l.speech ∧
      l.speaker ≠ some [])
    (heos : ∀ l ∈ lines.dropLast, isEndSentencePunct l.speech = true) :
    mergeWordLevelTranscript lines opts = lines := by
  cases lines with
  | nil => rfl
  | cons x rest =>
    unfold mergeWordLevelTranscript
    rw [if_neg (by simp)]
    exact mergeLoop_sentence_level _ _ (x :: rest) [] hcanon heos

/-- Witness for C3: a single canonical sentence-level line is returned
unchanged. -/
theorem claim_C3_witness :
    mergeWordLevelTranscript
      [{ start := "00:00:00.000".data, stop := "00:00:01.000".data,
         speech := "Hi.".data, speaker := none }] none =
      [{ start := "00:00:00.000".data, stop := "00:00:01.000".data,
         speech := "Hi.".data, speaker := none }] := by
  apply claim_C3_merge_idempotent
  · intro l hl
    rw [List.mem_singleton] at hl
    subst hl
    refine ⟨?_, ?_, by decide, by decide⟩
    · show msToTime (timeToMs "00:00:00.000".data) = _
      rw [show "00:00:00.000".data =
          pad2 0 ++ ':' :: pad2 0 ++ ':' :: pad2 0 ++ '.' :: pad3 0 from by decide,
        timeToMs_hmsmi 0 0 0 0 (by norm_num)]
      rw [show ((0 * 3600000 + 0 * 60000 + 0 * 1000 + 0 : ℕ) : ℤ) = ((0 : ℕ) : ℤ)
        from by norm_num, msToTime_natCast]
    · show msToTime (timeToMs "00:00:01.000".data) = _
      rw [show "00:00:01.000".data =
          pad2 0 ++ ':' :: pad2 0 ++ ':' :: pad2 1 ++ '.' :: pad3 0 from by decide,
        timeToMs_hmsmi 0 0 1 0 (by norm_num)]
      rw [show ((0 * 3600000 + 0 * 60000 + 1 * 1000 + 0 : ℕ) : ℤ) = ((1000 : ℕ) : ℤ)
        from by norm_num, msToTime_natCast]
  · intro l hl
    simp [List.dropLast] at hl

/-! ### C4: the segment merger -/

theorem mergeFramesRev_append (d : ℚ) :
    ∀ (xs ys : List (VoicedFrame × ℕ)) (acc : List DiaSegment),
      mergeFramesRev d acc (xs ++ ys) = mergeFramesRev d (mergeFramesRev d acc xs) ys := by
  intro xs
  induction xs with
  | nil => intro ys acc; rfl
  | cons p rest ih =>
    intro ys acc
    obtain ⟨f, lab⟩ := p
    cases acc with
    | nil => simp only [List.cons_append, mergeFramesRev]; exact ih ys _
    | cons last done =>
      simp only [List.cons_append, mergeFramesRev]
      split <;> exact ih ys _

theorem mergeFramesRev_single (d : ℚ) (acc : List DiaSegment) (f : VoicedFrame)
    (lab : ℕ) :
    mergeFramesRev d acc [(f, lab)] =
      match acc with
      | [] => [{ start := f.start, stop := f.stop, speaker := speakerTag lab }]
      | last :: done =>
        if last.speaker = speakerTag lab ∧ |f.start - last.stop| ≤ d then
          { last with stop := f.stop } :: done
        else
          { start := f.start, stop := f.stop, speaker := speakerTag lab } :: last :: done := by
  cases acc with
  | nil => rfl
  | cons last done => simp only [mergeFramesRev]

/-- Walking a chain of well-formed segments: the head's end bounds every
later segment's start. -/
theorem chain_le_of_mem :
    ∀ (l : List DiaSegment) (a : DiaSegment),
      List.Chain' (fun x y => x.stop ≤ y.start) (a :: l) →
      (∀ x ∈ a :: l, x.start ≤ x.stop) →
      ∀ b ∈ l, a.stop ≤ b.start := by
  intro l
  induction l with
  | nil => intro a _ _ b hb; simp at hb
  | cons b0 t ihl =>
    intro a hc hwf b hb
    obtain ⟨hhead, htail⟩ := List.chain'_cons'.mp hc
    have hab0 : a.stop ≤ b0.start := by simpa using hhead
    rcases List.mem_cons.mp hb with rfl | hbt
    · exact hab0
    · have hb0b : b0.stop ≤ b.start :=
        ihl b0 htail (fun x hx => hwf x (by simp at hx ⊢; tauto)) b hbt
      have hwfb0 : b0.start ≤ b0.stop := hwf b0 (by simp)
      linarith

/-- A chained list of well-formed segments is pairwise disjoint. -/
theorem chain_wf_pairwise :
    ∀ l : List DiaSegment, List.Chain' (fun a b => a.stop ≤ b.start) l →
      (∀ x ∈ l, x.start ≤ x.stop) →
      List.Pairwise (fun a b => a.stop ≤ b.start) l := by
  intro l
  induction l with
  | nil => intro _ _; exact List.Pairwise.nil
  | cons a l ih =>
    intro hc hwf
    obtain ⟨hhead, htail⟩ := List.chain'_cons'.mp hc
    exact List.Pairwise.cons (chain_le_of_mem l a hc hwf)
      (ih htail (fun x hx => hwf x (by simp [hx])))

/-- The main invariant of the merging loop, on the reversed accumulator
(the head of `acc` is the segment the source mutates in place). -/
theorem mergeFramesRev_main (d : ℚ) :
    ∀ (ps : List (VoicedFrame × ℕ)) (acc : List DiaSegment),
      List.Chain' (fun a b => a.1.stop ≤ b.1.start) ps →
      (∀ p ∈ ps, p.1.start ≤ p.1.stop) →
      List.Chain' (fun newer older => older.stop ≤ newer.start) acc →
      (∀ seg ∈ acc, seg.start ≤ seg.stop) →
      (∀ h ∈ acc.head?, ∀ p ∈ ps.head?, h.stop ≤ p.1.start) →
      List.Chain' (fun newer older => older.stop ≤ newer.start) (mergeFramesRev d acc ps) ∧
      (∀ seg ∈ mergeFramesRev d acc ps, seg.start ≤ seg.stop) ∧
      (∀ p ∈ ps, ∃ seg ∈ mergeFramesRev d acc ps,
        seg.start ≤ p.1.start ∧ p.1.stop ≤ seg.stop) ∧
      (∀ h t, acc = h :: t → ∃ pre h2, mergeFramesRev d acc ps = pre ++ h2 :: t ∧
        h2.start = h.start ∧ h.stop ≤ h2.stop) := by
  intro ps
  induction ps with
  | nil =>
    intro acc _ _ hchain hwf _
    exact ⟨hchain, hwf, by simp, fun h t heq =>
      ⟨[], h, by subst heq; rfl, rfl, le_refl _⟩⟩
  | cons p rest ih =>
    intro acc hchainPs hwfPs hchainAcc hwfAcc hlink
    obtain ⟨f, lab⟩ := p
    obtain ⟨hheadPs, htailPs⟩ := List.chain'_cons'.mp hchainPs
    have hwfF : f.start ≤ f.stop := hwfPs (f, lab) (by simp)
    have hwfRest : ∀ q ∈ rest, q.1.start ≤ q.1.stop :=
      fun q hq => hwfPs q (by simp [hq])
    have hlinkRest : ∀ q ∈ rest.head?, f.stop ≤ q.1.start := fun q hq => hheadPs q hq
    cases acc with
    | nil =>
      simp only [mergeFramesRev]
      have hIH := ih [{ start := f.start, stop := f.stop, speaker := speakerTag lab }]
        htailPs hwfRest (by simp) (by simpa using hwfF)
        (by intro h hh q hq
            simp only [List.head?_cons, Option.mem_def, Option.some.injEq] at hh
            subst hh
            exact hlinkRest q hq)
      obtain ⟨C1, C2, C3, C4⟩ := hIH
      refine ⟨C1, C2, ?_, by simp⟩
      intro q hq
      rcases List.mem_cons.mp hq with rfl | hqr
      · obtain ⟨pre, h2, hres, hstart2, hstop2⟩ := C4 _ [] rfl
        exact ⟨h2, by rw [hres]; simp, by simp [hstart2], by simpa using hstop2⟩
      · exact C3 q hqr
    | cons last done =>
      have hlinkF : last.stop ≤ f.start := by
        have := hlink last (by simp) (f, lab) (by simp)
        exact this
      obtain ⟨hheadAcc, htailAcc⟩ := List.chain'_cons'.mp hchainAcc
      have hwfLast : last.start ≤ last.stop := hwfAcc last (by simp)
      have hwfDone : ∀ seg ∈ done, seg.start ≤ seg.stop :=
        fun seg hs => hwfAcc seg (by simp [hs])
      simp only [mergeFramesRev]
      by_cases hcond : last.speaker = speakerTag lab ∧ |f.start - last.stop| ≤ d
      · rw [if_pos hcond]
        -- extend the head segment's end to f.stop
        have hIH := ih ({ last with stop := f.stop } :: done)
          htailPs hwfRest
          (by refine List.chain'_cons'.mpr ⟨?_, htailAcc⟩
              intro b hb
              simpa using hheadAcc b hb)
          (by intro seg hs
              rcases List.mem_cons.mp hs with rfl | hsd
              · show last.start ≤ f.stop
                linarith
              · exact hwfDone seg hsd)
          (by intro h hh q hq
              simp only [List.head?_cons, Option.mem_def, Option.some.injEq] at hh
              subst hh
              simpa using hlinkRest q hq)
        obtain ⟨C1, C2, C3, C4⟩ := hIH
        obtain ⟨pre, h2, hres, hstart2, hstop2⟩ := C4 _ done rfl
        refine ⟨C1, C2, ?_, ?_⟩
        · intro q hq
          rcases List.mem_cons.mp hq with rfl | hqr
          · refine ⟨h2, by rw [hres]; simp, ?_, ?_⟩
            · have : h2.start = last.start := hstart2
              linarith
            · have : f.stop ≤ h2.stop := by simpa using hstop2
              linarith
          · exact C3 q hqr
        · intro h t heq
          injection heq with hEq1 hEq2
          subst hEq1
          subst hEq2
          refine ⟨pre, h2, hres, hstart2, ?_⟩
          have : f.stop ≤ h2.stop := by simpa using hstop2
          linarith
      · rw [if_neg hcond]
        -- open a new segment in front
        have hIH := ih ({ start := f.start, stop := f.stop, speaker := speakerTag lab }
            :: last :: done)
          htailPs hwfRest
          (by refine List.chain'_cons'.mpr ⟨?_, hchainAcc⟩
              intro b hb
              simp only [List.head?_cons, Option.mem_def, Option.some.injEq] at hb
              subst hb
              exact hlinkF)
          (by intro seg hs
              rcases List.mem_cons.mp hs with rfl | hsd
              · exact hwfF
              · exact hwfAcc seg hsd)
          (by intro h hh q hq
              simp only [List.head?_cons, Option.mem_def, Option.some.injEq] at hh
              subst hh
              simpa using hlinkRest q hq)
        obtain ⟨C1, C2, C3, C4⟩ := hIH
        obtain ⟨pre, h2, hres, hstart2, hstop2⟩ := C4 _ (last :: done) rfl
        refine ⟨C1, C2, ?_, ?_⟩
        · intro q hq
          rcases List.mem_cons.mp hq with rfl | hqr
          · refine ⟨h2, by rw [hres]; simp, ?_, ?_⟩
            · have : h2.start = f.start := hstart2
              linarith
            · have : f.stop ≤ h2.stop := by simpa using hstop2
              linarith
          · exact C3 q hqr
        · intro h t heq
          injection heq with hEq1 hEq2
          subst hEq1
          subst hEq2
          exact ⟨pre ++ [h2], last, by rw [hres]; simp, rfl, le_refl _⟩

/-- **C4.** The merging loop extends the current (last) segment exactly
when the incoming frame's label matches the segment's speaker and
`|start - currentEnd| ≤ frameMs/1000`, and otherwise opens a new segment
(first conjunct: the effect of one more frame on the merged list).  On a
time-ordered, non-overlapping, well-formed voiced-frame sequence the
output segments are pairwise non-overlapping, sorted by `start` and
well-formed, every voiced frame's time range is contained in some output
segment, and (for frames of positive duration) in exactly one. -/
theorem claim_C4_mergeSegments_spec :
    (∀ (frameMs : ℚ) (ps : List (VoicedFrame × ℕ)) (f : VoicedFrame) (lab : ℕ),
      mergeVoicedFrames frameMs (ps ++ [(f, lab)]) =
        match (mergeVoicedFrames frameMs ps).getLast? with
        | none => [{ start := f.start, stop := f.stop, speaker := speakerTag lab }]
        | some last =>
          if last.speaker = speakerTag lab ∧ |f.start - last.stop| ≤ frameMs / 1000 then
            (mergeVoicedFrames frameMs ps).dropLast ++
              [{ start := last.start, stop := f.stop, speaker := last.speaker }]
          else
            mergeVoicedFrames frameMs ps ++
              [{ start := f.start, stop := f.stop, speaker := speakerTag lab }]) ∧
    (∀ (frameMs : ℚ) (ps : List (VoicedFrame × ℕ)),
      List.Chain' (fun a b => a.1.stop ≤ b.1.start) ps →
      (∀ p ∈ ps, p.1.start ≤ p.1.stop) →
      List.Pairwise (fun a b => a.stop ≤ b.start) (mergeVoicedFrames frameMs ps) ∧
      List.Pairwise (fun a b => a.start ≤ b.start) (mergeVoicedFrames frameMs ps) ∧
      (∀ seg ∈ mergeVoicedFrames frameMs ps, seg.start ≤ seg.stop) ∧
      (∀ p ∈ ps, ∃ seg ∈ mergeVoicedFrames frameMs ps,
        seg.start ≤ p.1.start ∧ p.1.stop ≤ seg.stop) ∧
      (∀ p ∈ ps, p.1.start < p.1.stop →
        ∀ s1 ∈ mergeVoicedFrames frameMs ps, ∀ s2 ∈ mergeVoicedFrames frameMs ps,
          s1.start ≤ p.1.start → p.1.stop ≤ s1.stop →
          s2.start ≤ p.1.start → p.1.stop ≤ s2.stop → s1 = s2)) := by
  constructor
  · intro frameMs ps f lab
    unfold mergeVoicedFrames
    rw [mergeFramesRev_append, mergeFramesRev_single]
    cases hR : mergeFramesRev (frameMs / 1000) [] ps with
    | nil => simp
    | cons last done =>
      have hlast : ((last :: done).reverse).getLast? = some last := by
        simp [List.getLast?_reverse]
      rw [hlast]
      change (if last.speaker = speakerTag lab ∧ |f.start - last.stop| ≤ frameMs / 1000 then
          { last with stop := f.stop } :: done
        else { start := f.start, stop := f.stop, speaker := speakerTag lab }
          :: last :: done).reverse =
        (if last.speaker = speakerTag lab ∧ |f.start - last.stop| ≤ frameMs / 1000 then
          (last :: done).reverse.dropLast ++
            [{ start := last.start, stop := f.stop, speaker := last.speaker }]
        else (last :: done).reverse ++
          [{ start := f.start, stop := f.stop, speaker := speakerTag lab }])
      by_cases hcond : last.speaker = speakerTag lab ∧ |f.start - last.stop| ≤ frameMs / 1000
      · rw [if_pos hcond, if_pos hcond]
        simp [List.reverse_cons, List.dropLast_concat]
      · rw [if_neg hcond, if_neg hcond]
        simp [List.reverse_cons]
  · intro frameMs ps hchain hwf
    obtain ⟨C1, C2, C3, _⟩ := mergeFramesRev_main (frameMs / 1000) ps []
      hchain hwf (by simp) (by simp) (by simp)
    have hwfOut : ∀ seg ∈ mergeVoicedFrames frameMs ps, seg.start ≤ seg.stop := by
      intro seg hs
      rw [mergeVoicedFrames, List.mem_reverse] at hs
      exact C2 seg hs
    have hchainOut : List.Chain' (fun a b => a.stop ≤ b.start)
        (mergeVoicedFrames frameMs ps) := by
      rw [mergeVoicedFrames, List.chain'_reverse]
      exact C1
    have hpw : List.Pairwise (fun a b => a.stop ≤ b.start) (mergeVoicedFrames frameMs ps) :=
      chain_wf_pairwise _ hchainOut hwfOut
    have hcov : ∀ p ∈ ps, ∃ seg ∈ mergeVoicedFrames frameMs ps,
        seg.start ≤ p.1.start ∧ p.1.stop ≤ seg.stop := by
      intro p hp
      obtain ⟨seg, hsm, hc1, hc2⟩ := C3 p hp
      exact ⟨seg, by rw [mergeVoicedFrames, List.mem_reverse]; exact hsm, hc1, hc2⟩
    refine ⟨hpw, ?_, hwfOut, hcov, ?_⟩
    · refine hpw.imp_of_mem ?_
      intro a b ha hb hab
      have := hwfOut a ha
      linarith
    · intro p hp hlt s1 hs1 s2 hs2 h11 h12 h21 h22
      by_contra hne
      have hpw2 : List.Pairwise
          (fun a b : DiaSegment => a.stop ≤ b.start ∨ b.stop ≤ a.start)
          (mergeVoicedFrames frameMs ps) := hpw.imp (fun h => Or.inl h)
      have hsymm : Symmetric (fun a b : DiaSegment =>
          a.stop ≤ b.start ∨ b.stop ≤ a.start) := fun a b h => h.symm
      have hR := hpw2.forall hsymm hs1 hs2 hne
      rcases hR with h | h
      · linarith
      · linarith

/-- Witness for C4: two adjacent same-label frames merge into one
segment. -/
theorem claim_C4_witness :
    List.Pairwise (fun a b => a.stop ≤ b.start)
      (mergeVoicedFrames 20 [(⟨0, 1/50, 5, 0⟩, 0), (⟨1/50, 1/25, 6, 1⟩, 1)]) := by
  refine (claim_C4_mergeSegments_spec.2 20
    [(⟨0, 1/50, 5, 0⟩, 0), (⟨1/50, 1/25, 6, 1⟩, 1)] ?_ ?_).1
  · refine List.chain'_cons'.mpr ⟨?_, ?_⟩
    · intro y hy
      simp only [List.head?_cons, Option.mem_def, Option.some.injEq] at hy
      subst hy
      norm_num
    · exact List.chain'_singleton _
  · intro p hp
    rcases List.mem_cons.mp hp with rfl | hp2
    · norm_num
    · rcases List.mem_cons.mp hp2 with rfl | hp3
      · norm_num
      · simp at hp3

end WhisperNode

